import Mathlib

/-!
Verification development for the x-triage model-evaluation utilities
(`UoA-DSC-Experiments/util.py`).

The Python source is embedded shallowly over `List ℚ`:
numpy arrays become lists of rationals, elementwise array arithmetic becomes
`List.zipWith` / `List.map`, `ndarray.sum()` becomes `List.sum`, and the
unbounded `while` loop of `safeset_percent` becomes a fuel-indexed step
function (`none` = the loop has not stopped within the given fuel).
-/

namespace XTriage

/-- Embeds `get_true_pos_rate` (util.py lines 25-32):
`(predictions * targets).sum() / float(targets.sum())`. -/
def get_true_pos_rate (predictions targets : List ℚ) : ℚ :=
  (List.zipWith (· * ·) predictions targets).sum / targets.sum

/-- Embeds `get_false_pos_rate` (util.py lines 35-45):
`(predictions * (1.0 - targets)).sum() / float((1.0 - targets).sum())`. -/
def get_false_pos_rate (predictions targets : List ℚ) : ℚ :=
  (List.zipWith (fun p t => p * (1 - t)) predictions targets).sum /
    (targets.map fun t => 1 - t).sum

/-- Embeds the binarization `(outputs > t).astype("int16")` used by
`roc_curve` (util.py line 64). -/
def binarize (outputs : List ℚ) (t : ℚ) : List ℚ :=
  outputs.map fun o => if t < o then 1 else 0

/-- Embeds `np.linspace(a, b, n)`: `n` evenly spaced samples from `a` to `b`
inclusive (for `n = 1` numpy returns `[a]`). -/
def linspace (a b : ℚ) (n : ℕ) : List ℚ :=
  if n = 1 then [a]
  else (List.range n).map fun j : ℕ => a + (b - a) * (j : ℚ) / ((n : ℚ) - 1)

/-- Embeds `roc_curve` (util.py lines 48-72): thresholds `np.linspace(1, 0, n)`;
for each threshold `t` the outputs are binarized by `outputs > t` and the
false/true positive rates are appended to two parallel lists.  The
`targets.astype("int16")` cast is the identity on binary-valued targets and is
not modelled. -/
def roc_curve (outputs targets : List ℚ) (n : ℕ) : List ℚ × List ℚ :=
  let thresholds := linspace 1 0 n
  (thresholds.map fun t => get_false_pos_rate (binarize outputs t) targets,
   thresholds.map fun t => get_true_pos_rate (binarize outputs t) targets)

/-- The `j`-th threshold of the `n`-point sweep, as the spec words it:
`n` thresholds linearly spaced from 1 down to 0 inclusive. -/
def rocThreshold (n j : ℕ) : ℚ :=
  1 - (j : ℚ) / ((n : ℚ) - 1)

/-- Embeds `area_under_curve` (util.py lines 75-85): the loop
`for i in range(0, len(x) - 1): a += (x[i+1] - x[i]) * (y[i+1] + y[i])`
followed by `a = a * 0.5`. -/
def area_under_curve (x y : List ℚ) : ℚ :=
  (∑ i in Finset.range (x.length - 1),
    (x.getD (i + 1) 0 - x.getD i 0) * (y.getD (i + 1) 0 + y.getD i 0)) * (1 / 2)

/-- Embeds `float((1 - targets).sum())`, the normal-example count of
`safeset_percent` (util.py line 112). -/
def n_normal (targets : List ℚ) : ℚ :=
  (targets.map fun t => 1 - t).sum

/-- Embeds `(predictions > threshold).astype("int16")` from the
`safeset_percent` loop body (util.py line 115). -/
def safesetAbove (predictions : List ℚ) (threshold : ℚ) : List ℚ :=
  predictions.map fun p => if threshold < p then 1 else 0

/-- Embeds `((1 - above_threshold) * targets).sum()`, the false-negative
count of the `safeset_percent` loop body (util.py line 117). -/
def safesetFalseNeg (above targets : List ℚ) : ℚ :=
  (List.zipWith (fun a t => (1 - a) * t) above targets).sum

/-- Embeds `((1 - above_threshold) * (1 - targets)).sum()`, the true-negative
count of the `safeset_percent` loop body (util.py line 121). -/
def safesetTrueNeg (above targets : List ℚ) : ℚ :=
  (List.zipWith (fun a t => (1 - a) * (1 - t)) above targets).sum

/-- Embeds the `while not tolerance_exceeded` loop of `safeset_percent`
(util.py lines 114-122), indexed by fuel since the Python loop has no
iteration or threshold bound.  One step binarizes at the current threshold,
computes the false-negative count, and either stops (returning the
true-negative count computed at this same threshold, exactly as the source
does: the flag is checked only at the top of the next iteration, after
`n_true_negatives` has been reassigned) or increments the threshold by `dx`.
`none` means the loop has not stopped within `fuel` iterations. -/
def safesetLoop (predictions targets : List ℚ) (tolerance dx : ℚ) :
    ℕ → ℚ → Option ℚ
  | 0, _ => none
  | fuel + 1, threshold =>
      let above := safesetAbove predictions threshold
      let fn := safesetFalseNeg above targets
      let tn := safesetTrueNeg above targets
      if tolerance ≤ fn then some tn
      else safesetLoop predictions targets tolerance dx fuel (threshold + dx)

/-- Embeds `safeset_percent` (util.py lines 102-123): run the threshold loop
from `threshold = 0` and return `100 * n_true_negatives / n_normal`.  The
extra `fuel` argument bounds how many loop iterations are simulated; `none`
means the source loop has not terminated within that many iterations. -/
def safeset_percent (predictions targets : List ℚ) (tolerance dx : ℚ)
    (fuel : ℕ) : Option ℚ :=
  (safesetLoop predictions targets tolerance dx fuel 0).map fun tn =>
    100 * tn / n_normal targets

/-- The source `safeset_percent` call returns the value `v`: the loop stops
within some finite number of iterations and yields `v`. -/
def SafesetComputes (predictions targets : List ℚ) (tolerance dx v : ℚ) :
    Prop :=
  ∃ fuel, safeset_percent predictions targets tolerance dx fuel = some v

/-- The source `safeset_percent` call terminates: the loop stops within some
finite number of iterations. -/
def SafesetTerminates (predictions targets : List ℚ) (tolerance dx : ℚ) :
    Prop :=
  ∃ fuel, (safeset_percent predictions targets tolerance dx fuel).isSome

/-- Embeds `w = int(n_examples / k)` of `k_fold_crossvalidation`
(util.py line 143). -/
def foldWidth (N k : ℕ) : ℕ := N / k

/-- Index set of fold `i`'s validation slice `X[val_start:val_end]` with
`val_start = w * fold` and `val_end = val_start + w` (util.py lines 149-153). -/
def valIndices (N k i : ℕ) : List ℕ :=
  List.range' (foldWidth N k * i) (foldWidth N k)

/-- Index set of fold `i`'s training data
`np.concatenate([X[val_end:], X[:val_start]])` (util.py lines 154-155):
the indices after the validation slice followed by those before it. -/
def trainIndices (N k i : ℕ) : List ℕ :=
  List.range' (foldWidth N k * i + foldWidth N k)
      (N - (foldWidth N k * i + foldWidth N k)) ++
    List.range' 0 (foldWidth N k * i)

/-- Observable weight-state events of one `k_fold_crossvalidation` run,
annotated with the model-weight value involved. -/
inductive KEvent (W : Type) where
  | saveInit : W → KEvent W
  | loadInit : W → KEvent W
  | fitBegin : ℕ → W → KEvent W
  | loadBest : W → KEvent W
  | evalFold : ℕ → KEvent W
deriving DecidableEq

/-- Recognizes an initial-checkpoint write event. -/
def isSaveInit {W : Type} : KEvent W → Bool
  | KEvent.saveInit _ => true
  | _ => false

/-- Weight state of a `k_fold_crossvalidation` run: the model's in-memory
weights plus the two checkpoint files `init_weights.h5` and `best_weights.h5`
(distinct paths, so they are separate fields). -/
structure KFState (W : Type) where
  model : W
  initFile : Option W
  bestFile : Option W

/-- Embeds the `for fold in range(k)` loop of `k_fold_crossvalidation`
(util.py lines 146-164), producing the final weight state and the event
trace.  Per fold the source does: `model.load_weights(tmp_path)`, then
`model.fit(...)` (whose `ModelCheckpoint` callback writes `best_weights.h5`,
modelled by `bestF fold` applied to the weights the fold starts from, while
`fit` itself moves the in-memory weights to `fitF fold` of them), then
`model.load_weights(best_path)`, then prediction/evaluation on the
validation slice. -/
def foldLoop {W : Type} (fitF bestF : ℕ → W → W) :
    ℕ → ℕ → KFState W → KFState W × List (KEvent W)
  | 0, _, s => (s, [])
  | n + 1, fold, s =>
      let wStart := s.initFile.getD s.model
      let wTrained := fitF fold wStart
      let wBest := bestF fold wStart
      let afterFit : KFState W :=
        { model := wTrained, initFile := s.initFile, bestFile := some wBest }
      let afterLoadBest : KFState W :=
        { afterFit with model := afterFit.bestFile.getD afterFit.model }
      let rest := foldLoop fitF bestF n (fold + 1) afterLoadBest
      (rest.1,
        KEvent.loadInit wStart :: KEvent.fitBegin fold wStart ::
          KEvent.loadBest afterLoadBest.model :: KEvent.evalFold fold :: rest.2)

/-- Embeds the weight-checkpoint lifecycle of `k_fold_crossvalidation`
(util.py lines 131-165): `model.save_weights(tmp_path)` once up front
(weights `w0`), then the fold loop. -/
def k_fold_trace {W : Type} (fitF bestF : ℕ → W → W) (w0 : W) (k : ℕ) :
    List (KEvent W) :=
  let s0 : KFState W := { model := w0, initFile := some w0, bestFile := none }
  KEvent.saveInit w0 :: (foldLoop fitF bestF k 0 s0).2

/-- Embeds `sizes = [x for x in range(stepSize, len(y), stepSize)]` with
`stepSize = len(y)/divisions` from `plot_safeset` (util.py lines 202-203),
under the integer-division semantics the comprehension requires. -/
def sizesFromDivisions (ylen d : ℕ) : List ℕ :=
  let step := ylen / d
  List.range' step ((ylen - step + (step - 1)) / step) step

/-- Embeds the configuration check of `plot_safeset` (util.py lines 201-208),
the code that runs after the `shuffle(X, y)` call of line 199 (see
`plot_safeset` below, which models that preceding call's name resolution):
`if divisions != None` build the size list from divisions (a zero division
count or a zero step fails inside that branch, with errors distinct from the
configuration error), `elif listSizes != None` use the given list, `else`
print and `raise ValueError`. -/
def plot_safeset_config (ylen : ℕ) (divisions : Option ℕ)
    (listSizes : Option (List ℕ)) : Except String (List ℕ) :=
  match divisions with
  | some d =>
      if d = 0 then Except.error "ZeroDivisionError"
      else if ylen / d = 0 then
        Except.error "ValueError: range arg 3 must not be zero"
      else Except.ok (sizesFromDivisions ylen d)
  | none =>
      match listSizes with
      | some sizes => Except.ok sizes
      | none => Except.error "Input EITHER divisions OR listSizes"

/-- Module-level bindings of util.py: the imports of lines 1-5 (`os`, `np`,
`plt`, `sns`, `callbacks`) and the functions the module defines.  No
module-level binding is named `shuffle` — `sklearn.utils.shuffle` is never
imported. -/
def utilModuleNames : List String :=
  ["os", "np", "plt", "sns", "callbacks", "plot_images", "get_true_pos_rate",
    "get_false_pos_rate", "roc_curve", "area_under_curve", "get_roc_auc",
    "safeset_percent", "get_safeset", "k_fold_crossvalidation",
    "plot_crossval_auc", "plot_safeset"]

/-- Local bindings of `plot_safeset` in scope at the `shuffle(X, y)` call
(util.py line 199): exactly the function's parameters. -/
def plot_safeset_localNames : List String :=
  ["X", "y", "model", "divisions", "listSizes", "tmp_path"]

/-- Name resolution at util.py line 199: a name resolves inside
`plot_safeset` when it is one of the function's own bindings or a
module-level binding (Python builtins define no `shuffle` either). -/
def plot_safeset_resolves (name : String) : Bool :=
  plot_safeset_localNames.contains name || utilModuleNames.contains name

/-- Embeds `plot_safeset` (util.py lines 187-223) up to its error/size-list
behaviour: the first statement `(X, y) = shuffle(X, y)` must resolve the
identifier `shuffle`, and no such binding exists, so Python raises
`NameError` before the configuration check is reached; had `shuffle`
resolved, execution would continue (shuffling preserves `len(y)`) into the
configuration check of lines 201-208 embedded by `plot_safeset_config`. -/
def plot_safeset (ylen : ℕ) (divisions : Option ℕ)
    (listSizes : Option (List ℕ)) : Except String (List ℕ) :=
  if plot_safeset_resolves "shuffle" then
    plot_safeset_config ylen divisions listSizes
  else Except.error "NameError: name shuffle is not defined"

/-- Name environment at the `roc_curve(outputs, targets)` call inside
`get_roc_auc` (util.py line 97), restricted to vector-valued bindings: the
names in scope are the parameters `X`, `y`, `model`, the local `outputs`,
and the module-level imports and function definitions of util.py — of these
only `y` and `outputs` are vectors, and no binding anywhere in scope is
named `targets`. -/
def get_roc_auc_lookup (y outputs : List ℚ) : String → Option (List ℚ) :=
  fun name =>
    if name = "y" then some y
    else if name = "outputs" then some outputs
    else none

/-- Embeds `get_roc_auc` (util.py lines 88-99): compute
`outputs = model.predict(X).reshape(y.shape)`, then evaluate
`roc_curve(outputs, targets)` — the identifier `targets` must be resolved in
the enclosing scope, and no such binding exists, so Python raises
`NameError`; otherwise the area under the resulting curve would be
returned. -/
def get_roc_auc (X : List (List ℚ)) (y : List ℚ)
    (model : List (List ℚ) → List ℚ) : Except String ℚ :=
  let outputs := model X
  match get_roc_auc_lookup y outputs "targets" with
  | some targs =>
      let rc := roc_curve outputs targs 100
      Except.ok (area_under_curve rc.1 rc.2)
  | none => Except.error "NameError: name targets is not defined"

/-! ## General helper lemmas -/

theorem mem_range1 {m s n : ℕ} : m ∈ List.range' s n ↔ s ≤ m ∧ m < s + n := by
  rw [List.mem_range']
  constructor
  · rintro ⟨i, hi, rfl⟩; omega
  · rintro ⟨h1, h2⟩; exact ⟨m - s, by omega, by omega⟩

theorem getD_map_range {α : Type} [Inhabited α] (f : ℕ → α) (d : α) {n j : ℕ}
    (h : j < n) : ((List.range n).map f).getD j d = f j := by
  have hlen : j < ((List.range n).map f).length := by simpa using h
  rw [List.getD_eq_getElem _ _ hlen, List.getElem_map, List.getElem_range]

theorem getD_reverse (l : List ℚ) {i : ℕ} (h : i < l.length) :
    l.reverse.getD i 0 = l.getD (l.length - 1 - i) 0 := by
  rw [List.getD_eq_getElem _ _ (by simpa using h),
    List.getD_eq_getElem _ _ (by omega : l.length - 1 - i < l.length)]
  rw [List.getElem_reverse]

theorem binary_sum_nonneg {l : List ℚ} (h : ∀ x ∈ l, x = 0 ∨ x = 1) :
    0 ≤ l.sum :=
  List.sum_nonneg fun x hx => by rcases h x hx with rfl | rfl <;> norm_num

theorem binary_one_le_sum {l : List ℚ} (h : ∀ x ∈ l, x = 0 ∨ x = 1)
    (h1 : ∃ x ∈ l, x = 1) : 1 ≤ l.sum := by
  induction l with
  | nil => obtain ⟨x, hx, _⟩ := h1; exact absurd hx (List.not_mem_nil x)
  | cons a t ih =>
    obtain ⟨x, hx, rfl⟩ := h1
    have hta : ∀ z ∈ t, z = 0 ∨ z = 1 := fun z hz => h z (List.mem_cons_of_mem _ hz)
    rcases List.mem_cons.mp hx with rfl | hm
    · have := binary_sum_nonneg hta
      rw [List.sum_cons]; linarith
    · have hs := ih hta ⟨1, hm, rfl⟩
      have ha : (0:ℚ) ≤ a := by
        rcases h a (List.mem_cons_self a t) with rfl | rfl <;> norm_num
      rw [List.sum_cons]; linarith

theorem zipWith_mul_sum_nonneg {p t : List ℚ} (hp : ∀ x ∈ p, x = 0 ∨ x = 1)
    (ht : ∀ x ∈ t, x = 0 ∨ x = 1) :
    0 ≤ (List.zipWith (· * ·) p t).sum := by
  induction p generalizing t with
  | nil => simp
  | cons a ps ih =>
    cases t with
    | nil => simp
    | cons b ts =>
      rw [List.zipWith_cons_cons, List.sum_cons]
      have h1 : (0:ℚ) ≤ a * b := by
        rcases hp a (List.mem_cons_self a ps) with rfl | rfl <;>
          rcases ht b (List.mem_cons_self b ts) with rfl | rfl <;> norm_num
      have h2 := ih (fun x hx => hp x (List.mem_cons_of_mem _ hx))
        (fun x hx => ht x (List.mem_cons_of_mem _ hx))
      linarith

theorem zipWith_mul_sum_le {p t : List ℚ} (hlen : p.length = t.length)
    (hp : ∀ x ∈ p, x = 0 ∨ x = 1) (ht : ∀ x ∈ t, x = 0 ∨ x = 1) :
    (List.zipWith (· * ·) p t).sum ≤ t.sum := by
  induction p generalizing t with
  | nil =>
    cases t with
    | nil => simp
    | cons b ts => simp at hlen
  | cons a ps ih =>
    cases t with
    | nil => simp at hlen
    | cons b ts =>
      rw [List.zipWith_cons_cons, List.sum_cons, List.sum_cons]
      have h1 : a * b ≤ b := by
        rcases hp a (List.mem_cons_self a ps) with rfl | rfl <;>
          rcases ht b (List.mem_cons_self b ts) with rfl | rfl <;> norm_num
      have h2 := ih (by simpa using hlen)
        (fun x hx => hp x (List.mem_cons_of_mem _ hx))
        (fun x hx => ht x (List.mem_cons_of_mem _ hx))
      linarith

/-! ## C3: area_under_curve computes the composite trapezoidal sum -/

/-- C3: for every pair of equal-length rational sequences `x` and `y`,
`area_under_curve` returns the composite trapezoidal sum over consecutive
index pairs `i` of `(x[i+1] - x[i]) * (y[i+1] + y[i]) / 2` (no spacing
assumption on `x` is used), and for every degenerate input of length 0 or 1
it returns exactly 0. -/
theorem area_under_curve_trapezoid_sum (x y : List ℚ)
    (h : x.length = y.length) :
    area_under_curve x y =
      (∑ i in Finset.range (x.length - 1),
        (x.getD (i + 1) 0 - x.getD i 0) * (y.getD (i + 1) 0 + y.getD i 0) / 2) ∧
    (x.length ≤ 1 → area_under_curve x y = 0) := by
  constructor
  · rw [area_under_curve, ← Finset.sum_div]
    ring
  · intro hx
    rw [area_under_curve]
    have hz : x.length - 1 = 0 := by omega
    rw [hz]
    simp

/-- Witness for C3 at `x = y = [0, 1/2, 1]` (the spec's diagonal scenario). -/
theorem area_under_curve_trapezoid_sum_witness :
    ([(0:ℚ), 1/2, 1].length = [(0:ℚ), 1/2, 1].length) ∧
      area_under_curve [0, 1/2, 1] [0, 1/2, 1] =
        ∑ i in Finset.range ([(0:ℚ), 1/2, 1].length - 1),
          ([(0:ℚ), 1/2, 1].getD (i + 1) 0 - [(0:ℚ), 1/2, 1].getD i 0) *
            ([(0:ℚ), 1/2, 1].getD (i + 1) 0 + [(0:ℚ), 1/2, 1].getD i 0) / 2 :=
  ⟨rfl, (area_under_curve_trapezoid_sum [0, 1/2, 1] [0, 1/2, 1] rfl).1⟩

/-! ## C5: reversal behaviour of area_under_curve -/

/-- C5 counterexample: reversing both sequences does not leave
`area_under_curve` unchanged — on the diagonal `x = y = [0, 1]` the area is
`1/2` but on the reversed sequences it is `-1/2`. -/
theorem area_under_curve_reverse_cex :
    area_under_curve (List.reverse [(0:ℚ), 1]) (List.reverse [(0:ℚ), 1]) ≠
        area_under_curve [(0:ℚ), 1] [(0:ℚ), 1] ∧
      area_under_curve [(0:ℚ), 1] [(0:ℚ), 1] = 1 / 2 ∧
      area_under_curve (List.reverse [(0:ℚ), 1]) (List.reverse [(0:ℚ), 1]) =
        -(1 / 2) := by
  have hrev : List.reverse [(0:ℚ), 1] = [1, 0] := rfl
  refine ⟨?_, ?_, ?_⟩ <;>
    norm_num [hrev, area_under_curve, Finset.sum_range_succ, List.getD]

/-- C5 amended: `area_under_curve` applied to the reversed sequences returns
the negation of `area_under_curve` applied to the originals (the `x`
difference in each trapezoid term changes sign while the `y` sum does not). -/
theorem area_under_curve_reverse_neg (x y : List ℚ)
    (h : x.length = y.length) :
    area_under_curve x.reverse y.reverse = -area_under_curve x y := by
  rcases Nat.lt_or_ge x.length 2 with hn | hn
  · rw [area_under_curve, area_under_curve, List.length_reverse]
    have h1 : x.length - 1 = 0 := by omega
    rw [h1]
    simp
  · rw [area_under_curve, area_under_curve, List.length_reverse]
    rw [← Finset.sum_range_reflect, ← neg_mul]
    congr 1
    rw [← Finset.sum_neg_distrib]
    refine Finset.sum_congr rfl fun j hj => ?_
    have hjm : j < x.length - 1 := Finset.mem_range.mp hj
    have e1 : x.reverse.getD (x.length - 1 - 1 - j) 0 = x.getD (j + 1) 0 := by
      rw [getD_reverse x (by omega)]
      congr 1
      omega
    have e2 : x.reverse.getD (x.length - 1 - 1 - j + 1) 0 = x.getD j 0 := by
      rw [getD_reverse x (by omega)]
      congr 1
      omega
    have e3 : y.reverse.getD (x.length - 1 - 1 - j) 0 = y.getD (j + 1) 0 := by
      rw [getD_reverse y (by omega)]
      rw [← h]
      congr 1
      omega
    have e4 : y.reverse.getD (x.length - 1 - 1 - j + 1) 0 = y.getD j 0 := by
      rw [getD_reverse y (by omega)]
      rw [← h]
      congr 1
      omega
    rw [e1, e2, e3, e4]
    ring

/-- Witness for the amended C5 at `x = y = [0, 1]`. -/
theorem area_under_curve_reverse_neg_witness :
    ([(0:ℚ), 1].length = [(0:ℚ), 1].length) ∧
      area_under_curve (List.reverse [(0:ℚ), 1]) (List.reverse [(0:ℚ), 1]) =
        -area_under_curve [(0:ℚ), 1] [(0:ℚ), 1] :=
  ⟨rfl, area_under_curve_reverse_neg [(0:ℚ), 1] [(0:ℚ), 1] rfl⟩

/-! ## C7: the metric primitives stay inside the unit interval -/

/-- C7: for every binary prediction vector and equal-length binary target
vector containing at least one positive and at least one negative,
`get_true_pos_rate` and `get_false_pos_rate` each return a value in `[0, 1]`. -/
theorem rates_in_unit_interval (p t : List ℚ) (hlen : p.length = t.length)
    (hp : ∀ x ∈ p, x = 0 ∨ x = 1) (ht : ∀ x ∈ t, x = 0 ∨ x = 1)
    (hpos : ∃ x ∈ t, x = 1) (hneg : ∃ x ∈ t, x = 0) :
    (0 ≤ get_true_pos_rate p t ∧ get_true_pos_rate p t ≤ 1) ∧
      (0 ≤ get_false_pos_rate p t ∧ get_false_pos_rate p t ≤ 1) := by
  have htsum : 1 ≤ t.sum := binary_one_le_sum ht hpos
  have hts0 : (0:ℚ) < t.sum := by linarith
  constructor
  · constructor
    · exact div_nonneg (zipWith_mul_sum_nonneg hp ht) (le_of_lt hts0)
    · rw [get_true_pos_rate, div_le_one hts0]
      exact zipWith_mul_sum_le hlen hp ht
  · set t' : List ℚ := t.map fun x => 1 - x with ht'
    have hrw : List.zipWith (fun p t => p * (1 - t)) p t =
        List.zipWith (· * ·) p t' := by
      rw [ht', List.zipWith_map_right]
    have ht'bin : ∀ x ∈ t', x = 0 ∨ x = 1 := by
      intro x hx
      rw [ht', List.mem_map] at hx
      obtain ⟨z, hz, rfl⟩ := hx
      rcases ht z hz with rfl | rfl
      · right; norm_num
      · left; norm_num
    have ht'len : p.length = t'.length := by rw [ht', List.length_map]; exact hlen
    have ht'one : ∃ x ∈ t', x = 1 := by
      obtain ⟨z, hz, rfl⟩ := hneg
      exact ⟨1, by rw [ht', List.mem_map]; exact ⟨0, hz, by norm_num⟩, rfl⟩
    have ht'sum : 1 ≤ t'.sum := binary_one_le_sum ht'bin ht'one
    have ht's0 : (0:ℚ) < t'.sum := by linarith
    rw [get_false_pos_rate, hrw, ← ht']
    constructor
    · exact div_nonneg (zipWith_mul_sum_nonneg hp ht'bin) (le_of_lt ht's0)
    · rw [div_le_one ht's0]
      exact zipWith_mul_sum_le ht'len hp ht'bin

/-- Witness for C7 at `p = [1, 0]`, `t = [1, 0]`. -/
theorem rates_in_unit_interval_witness :
    (0 ≤ get_true_pos_rate [1, 0] [1, 0] ∧
        get_true_pos_rate [1, 0] [1, 0] ≤ 1) ∧
      (0 ≤ get_false_pos_rate [1, 0] [1, 0] ∧
        get_false_pos_rate [1, 0] [1, 0] ≤ 1) :=
  rates_in_unit_interval [1, 0] [1, 0] rfl (by decide) (by decide)
    (by decide) (by decide)

/-! ## C2: the ROC sweep -/

/-- C2: for every output vector, binary target vector with at least one
positive and one negative, and `n ≥ 2`, `roc_curve` returns two sequences of
length exactly `n` whose `j`-th entries are the false-positive and
true-positive rates of the binarization `output > t_j`, where
`t_j = 1 - j / (n - 1)` are the `n` thresholds linearly spaced from 1 down to
0 inclusive; the thresholds (hence the pairs) are strictly decreasing in `j`.
Determinism given identical inputs is immediate since `roc_curve` is a pure
function of its arguments. -/
theorem roc_curve_spec (outputs targets : List ℚ) (n : ℕ) (hn : 2 ≤ n)
    (ht : ∀ x ∈ targets, x = 0 ∨ x = 1) (hpos : ∃ x ∈ targets, x = 1)
    (hneg : ∃ x ∈ targets, x = 0) :
    (roc_curve outputs targets n).1.length = n ∧
      (roc_curve outputs targets n).2.length = n ∧
      (∀ j, j < n →
        (roc_curve outputs targets n).1.getD j 0 =
          get_false_pos_rate (binarize outputs (rocThreshold n j)) targets ∧
        (roc_curve outputs targets n).2.getD j 0 =
          get_true_pos_rate (binarize outputs (rocThreshold n j)) targets) ∧
      rocThreshold n 0 = 1 ∧ rocThreshold n (n - 1) = 0 ∧
      (∀ i j, i < j → j < n → rocThreshold n j < rocThreshold n i) := by
  have hne : n ≠ 1 := by omega
  have hnq : (0:ℚ) < (n : ℚ) - 1 := by
    have : (2:ℚ) ≤ (n : ℚ) := by exact_mod_cast hn
    linarith
  have hfun : (fun j : ℕ => 1 + ((0:ℚ) - 1) * (j : ℚ) / ((n : ℚ) - 1)) =
      rocThreshold n := by
    funext j
    rw [rocThreshold]
    ring
  have hlin : linspace 1 0 n = (List.range n).map (rocThreshold n) := by
    rw [linspace, if_neg hne, hfun]
  refine ⟨?_, ?_, ?_, ?_, ?_, ?_⟩
  · rw [roc_curve, hlin]
    simp
  · rw [roc_curve, hlin]
    simp
  · intro j hj
    constructor
    · rw [roc_curve, hlin, List.map_map, List.map_map]
      exact getD_map_range _ _ hj
    · rw [roc_curve, hlin, List.map_map, List.map_map]
      exact getD_map_range _ _ hj
  · rw [rocThreshold]
    norm_num
  · rw [rocThreshold]
    have hcast : ((n - 1 : ℕ) : ℚ) = (n : ℚ) - 1 := by
      have : 1 ≤ n := by omega
      push_cast [this]
      ring
    rw [hcast, div_self hnq.ne']
    ring
  · intro i j hij hjn
    rw [rocThreshold, rocThreshold, sub_lt_sub_iff_left,
      div_lt_div_iff_of_pos_right hnq]
    exact_mod_cast hij

/-- Witness for C2 at `outputs = [1/2]`, `targets = [1, 0]`, `n = 2`. -/
theorem roc_curve_spec_witness :
    (2 ≤ 2) ∧ (roc_curve [(1:ℚ)/2] [1, 0] 2).1.length = 2 ∧
      (roc_curve [(1:ℚ)/2] [1, 0] 2).2.length = 2 ∧
      rocThreshold 2 0 = 1 ∧ rocThreshold 2 1 = 0 := by
  have h := roc_curve_spec [(1:ℚ)/2] [1, 0] 2 (by norm_num) (by decide)
    (by decide) (by decide)
  exact ⟨by norm_num, h.1, h.2.1, h.2.2.2.1, h.2.2.2.2.1⟩

/-! ## C4: the k-fold partition of example indices -/

theorem partition_aux {w k j : ℕ} (hw0 : 0 < w) (hj : j < w * k) :
    ∃! i, i < k ∧ j ∈ List.range' (w * i) w := by
  have hdm : w * (j / w) + j % w = j := Nat.div_add_mod j w
  have hmlt : j % w < w := Nat.mod_lt j hw0
  have hle : w * (j / w) ≤ j := Nat.le.intro hdm
  have hqk : j / w < k := by
    by_contra hik
    push_neg at hik
    have hmul : w * k ≤ w * (j / w) := Nat.mul_le_mul_left w hik
    exact absurd (lt_of_lt_of_le hj (hmul.trans hle)) (lt_irrefl j)
  refine ⟨j / w, ⟨hqk, ?_⟩, ?_⟩
  · rw [mem_range1]
    refine ⟨hle, ?_⟩
    have hlt := Nat.add_lt_add_left hmlt (w * (j / w))
    rw [hdm] at hlt
    exact hlt
  · rintro i ⟨hik, him⟩
    rw [mem_range1] at him
    obtain ⟨h1, h2⟩ := him
    have hi_le : i ≤ j / w :=
      (Nat.le_div_iff_mul_le hw0).mpr (by rw [Nat.mul_comm]; exact h1)
    have hq_lt : j / w < i + 1 :=
      (Nat.div_lt_iff_lt_mul hw0).mpr (h2.trans_eq (by ring))
    omega

theorem train_aux {w k i N : ℕ} (hN : w * k = N) (hik : i < k) (j : ℕ) :
    j ∈ (List.range' (w * i + w) (N - (w * i + w)) ++ List.range' 0 (w * i)) ↔
      (j < N ∧ j ∉ List.range' (w * i) w) := by
  have hmul : w * (i + 1) ≤ w * k := Nat.mul_le_mul_left w hik
  have hmul2 : w * (i + 1) = w * i + w := by ring
  have hvend : w * i + w ≤ N := by linarith
  rw [List.mem_append, mem_range1, mem_range1, mem_range1]
  generalize w * i = s at *
  omega

/-- C4: for `N` examples and `k` folds with `k ∣ N`, every example index
`j < N` lies in the validation slice `[i*w, i*w + w)` (with `w = N / k`) of
exactly one fold `i < k`, and for each fold the training indices — the
concatenation of the indices after the validation slice with those before
it, exactly as `np.concatenate([X[val_end:], X[:val_start]])` builds them —
are precisely the indices of the full dataset outside that fold's
validation slice. -/
theorem k_fold_partition (N k : ℕ) (hk : 0 < k) (hdvd : k ∣ N) :
    (∀ j, j < N → ∃! i, i < k ∧ j ∈ valIndices N k i) ∧
      (∀ i, i < k → ∀ j,
        (j ∈ trainIndices N k i ↔ j < N ∧ j ∉ valIndices N k i)) := by
  have hN : foldWidth N k * k = N := Nat.div_mul_cancel hdvd
  constructor
  · intro j hj
    have hw0 : 0 < foldWidth N k := by
      rcases Nat.eq_zero_or_pos (foldWidth N k) with h0 | h0
      · rw [h0] at hN
        omega
      · exact h0
    simp only [valIndices]
    exact partition_aux hw0 (by rw [hN]; exact hj)
  · intro i hik j
    simp only [trainIndices, valIndices]
    exact train_aux hN hik j

/-- Witness for C4 at `N = 4`, `k = 2`. -/
theorem k_fold_partition_witness :
    (0 < 2) ∧ (2 ∣ 4) ∧
      (∀ j, j < 4 → ∃! i, i < 2 ∧ j ∈ valIndices 4 2 i) ∧
      (∀ i, i < 2 → ∀ j,
        (j ∈ trainIndices 4 2 i ↔ j < 4 ∧ j ∉ valIndices 4 2 i)) := by
  exact ⟨by norm_num, by norm_num,
    (k_fold_partition 4 2 (by norm_num) (by norm_num)).1,
    (k_fold_partition 4 2 (by norm_num) (by norm_num)).2⟩

/-! ## Safe-set threshold search: helper lemmas -/

theorem mem_le_foldr_max (x : ℚ) (l : List ℚ) (h : x ∈ l) :
    x ≤ l.foldr max 0 := by
  induction l with
  | nil => simp at h
  | cons a t ih =>
    rcases List.mem_cons.mp h with rfl | hm
    · simp [le_max_iff]
    · simp only [List.foldr_cons, le_max_iff]
      exact Or.inr (ih hm)

theorem safesetLoop_mono (p t : List ℚ) (tol dx : ℚ) :
    ∀ (fuel fuel' : ℕ) (th v : ℚ), fuel ≤ fuel' →
      safesetLoop p t tol dx fuel th = some v →
      safesetLoop p t tol dx fuel' th = some v := by
  intro fuel
  induction fuel with
  | zero =>
    intro fuel' th v _ h
    simp [safesetLoop] at h
  | succ f ih =>
    intro fuel' th v hle h
    obtain ⟨f', rfl⟩ : ∃ f', fuel' = f' + 1 := ⟨fuel' - 1, by omega⟩
    simp only [safesetLoop] at h ⊢
    by_cases hc : tol ≤ safesetFalseNeg (safesetAbove p th) t
    · rw [if_pos hc] at h ⊢
      exact h
    · rw [if_neg hc] at h ⊢
      exact ih f' (th + dx) v (by omega) h

theorem safesetComputes_unique {p t : List ℚ} {tol dx v₁ v₂ : ℚ}
    (h1 : SafesetComputes p t tol dx v₁) (h2 : SafesetComputes p t tol dx v₂) :
    v₁ = v₂ := by
  obtain ⟨f1, e1⟩ := h1
  obtain ⟨f2, e2⟩ := h2
  rw [safeset_percent] at e1 e2
  obtain ⟨w1, hw1, hv1⟩ := Option.map_eq_some'.mp e1
  obtain ⟨w2, hw2, hv2⟩ := Option.map_eq_some'.mp e2
  have m1 := safesetLoop_mono p t tol dx f1 (max f1 f2) 0 w1
    (le_max_left _ _) hw1
  have m2 := safesetLoop_mono p t tol dx f2 (max f1 f2) 0 w2
    (le_max_right _ _) hw2
  rw [m1] at m2
  obtain rfl : w1 = w2 := by injection m2
  rw [← hv1, ← hv2]

theorem fn_of_all_le {preds targets : List ℚ} {th : ℚ}
    (hlen : preds.length = targets.length) (h : ∀ p ∈ preds, p ≤ th) :
    safesetFalseNeg (safesetAbove preds th) targets = targets.sum := by
  induction preds generalizing targets with
  | nil =>
    cases targets with
    | nil => rfl
    | cons b ts => simp at hlen
  | cons a ps ih =>
    cases targets with
    | nil => simp at hlen
    | cons b ts =>
      have ha : ¬ th < a := not_lt.mpr (h a (List.mem_cons_self a ps))
      have hrest := ih (show ps.length = ts.length by simpa using hlen)
        (fun p hp => h p (List.mem_cons_of_mem _ hp))
      rw [safesetFalseNeg, safesetAbove, List.map_cons,
        List.zipWith_cons_cons, List.sum_cons, List.sum_cons, if_neg ha]
      rw [safesetFalseNeg, safesetAbove] at hrest
      rw [hrest]
      ring

theorem safesetLoop_term_of_bound {preds targets : List ℚ} {tol dx : ℚ}
    (hlen : preds.length = targets.length) (htol : tol ≤ targets.sum) :
    ∀ (fuel : ℕ) (th : ℚ), (∀ p ∈ preds, p ≤ th + fuel * dx) →
      (safesetLoop preds targets tol dx (fuel + 1) th).isSome := by
  intro fuel
  induction fuel with
  | zero =>
    intro th hb
    have hfn : safesetFalseNeg (safesetAbove preds th) targets = targets.sum :=
      fn_of_all_le hlen (by simpa using hb)
    simp only [safesetLoop]
    rw [hfn, if_pos htol]
    rfl
  | succ f ih =>
    intro th hb
    simp only [safesetLoop]
    by_cases hc : tol ≤ safesetFalseNeg (safesetAbove preds th) targets
    · rw [if_pos hc]
      rfl
    · rw [if_neg hc]
      apply ih (th + dx)
      intro p hp
      have hpb := hb p hp
      have hcast : ((f + 1 : ℕ) : ℚ) = (f : ℚ) + 1 := by push_cast; ring
      calc p ≤ th + ((f + 1 : ℕ) : ℚ) * dx := hpb
        _ = (th + dx) + (f : ℚ) * dx := by rw [hcast]; ring

/-! ## C1: termination behaviour of the safe-set threshold sweep -/

theorem safesetLoop_cex_none :
    ∀ (fuel : ℕ) (th : ℚ),
      safesetLoop [1/2] [0] 1 (1/1000) fuel th = none := by
  intro fuel
  induction fuel with
  | zero => intro th; rfl
  | succ f ih =>
    intro th
    have hcond : ¬ ((1:ℚ) ≤ safesetFalseNeg (safesetAbove [1/2] th) [0]) := by
      norm_num [safesetFalseNeg, safesetAbove]
    simp only [safesetLoop]
    rw [if_neg hcond]
    exact ih (th + 1/1000)

/-- C1 counterexample: the safe-set threshold sweep is not bounded by any
maximum threshold or iteration count — with predictions `[1/2]`, the binary
target vector `[0]`, integer tolerance `1` and positive step `1/1000` (a
tolerance exceeding the total number of positive targets), the loop never
stops: no amount of fuel makes `safeset_percent` return. -/
theorem safeset_unbounded_cex : ¬ SafesetTerminates [1/2] [0] 1 (1/1000) := by
  rintro ⟨fuel, h⟩
  rw [safeset_percent, safesetLoop_cex_none fuel 0] at h
  simp at h

/-- C1 amended: the sweep terminates exactly when the stop condition is
reachable; in particular, for every prediction vector, every tolerance that
is at most the sum of the target vector (for binary targets: at most the
number of positive targets) and every positive step `dx`, the loop stops
after finitely many iterations.  When the tolerance exceeds the total
positive count the loop runs forever (see the counterexample), since the
source has no maximum-threshold or maximum-iteration guard. -/
theorem safeset_terminates_of_tolerance_reachable (preds targets : List ℚ)
    (tol dx : ℚ) (hdx : 0 < dx) (hlen : preds.length = targets.length)
    (htol : tol ≤ targets.sum) : SafesetTerminates preds targets tol dx := by
  obtain ⟨nf, hnf⟩ := exists_nat_ge (preds.foldr max 0 / dx)
  refine ⟨nf + 1, ?_⟩
  rw [safeset_percent]
  have hbound : ∀ p ∈ preds, p ≤ 0 + (nf : ℚ) * dx := by
    intro p hp
    have h1 : p ≤ preds.foldr max 0 := mem_le_foldr_max p preds hp
    have h2 : preds.foldr max 0 ≤ (nf : ℚ) * dx := by
      rw [div_le_iff hdx] at hnf
      linarith
    linarith
  have hsome := @safesetLoop_term_of_bound preds targets tol dx hlen htol nf 0 hbound
  obtain ⟨v, hv⟩ := Option.isSome_iff_exists.mp hsome
  rw [hv]
  rfl

/-- Witness for the amended C1 at `preds = [1/2]`, `targets = [1]`,
`tolerance = 1`, `dx = 1/1000`. -/
theorem safeset_terminates_witness :
    (0 < (1/1000 : ℚ)) ∧ [(1:ℚ)/2].length = [(1:ℚ)].length ∧
      (1 : ℚ) ≤ [(1:ℚ)].sum ∧ SafesetTerminates [1/2] [1] 1 (1/1000) :=
  ⟨by norm_num, rfl, by simp,
    safeset_terminates_of_tolerance_reachable [1/2] [1] 1 (1/1000)
      (by norm_num) rfl (by simp)⟩

/-! ## C6: safe-set search with tolerance zero -/

theorem fn_nonneg_binary {preds targets : List ℚ} {th : ℚ}
    (ht : ∀ x ∈ targets, x = 0 ∨ x = 1) :
    0 ≤ safesetFalseNeg (safesetAbove preds th) targets := by
  induction preds generalizing targets with
  | nil => simp [safesetFalseNeg, safesetAbove]
  | cons a ps ih =>
    cases targets with
    | nil => simp [safesetFalseNeg, safesetAbove]
    | cons b ts =>
      have hb := ht b (List.mem_cons_self b ts)
      have hrest := ih (show ∀ x ∈ ts, x = 0 ∨ x = 1 from
        fun x hx => ht x (List.mem_cons_of_mem _ hx))
      rw [safesetFalseNeg, safesetAbove, List.map_cons,
        List.zipWith_cons_cons, List.sum_cons]
      rw [safesetFalseNeg, safesetAbove] at hrest
      have hterm : 0 ≤ (1 - if th < a then (1:ℚ) else 0) * b := by
        rcases hb with rfl | rfl
        · norm_num
        · by_cases hc : th < a
          · rw [if_pos hc]; norm_num
          · rw [if_neg hc]; norm_num
      linarith

theorem tn_at_zero_eq_count {preds targets : List ℚ}
    (ht : ∀ x ∈ targets, x = 0 ∨ x = 1) :
    safesetTrueNeg (safesetAbove preds 0) targets =
      (((preds.zip targets).countP
        fun pt => decide (pt.1 ≤ 0) && decide (pt.2 = 0)) : ℚ) := by
  induction preds generalizing targets with
  | nil => simp [safesetTrueNeg, safesetAbove]
  | cons a ps ih =>
    cases targets with
    | nil => simp [safesetTrueNeg, safesetAbove]
    | cons b ts =>
      have hb := ht b (List.mem_cons_self b ts)
      have hrest := ih (show ∀ x ∈ ts, x = 0 ∨ x = 1 from
        fun x hx => ht x (List.mem_cons_of_mem _ hx))
      rw [safesetTrueNeg, safesetAbove, List.map_cons,
        List.zipWith_cons_cons, List.sum_cons]
      rw [safesetTrueNeg, safesetAbove] at hrest
      rw [List.zip_cons_cons, List.countP_cons, hrest]
      rcases hb with rfl | rfl <;> by_cases hc : (0:ℚ) < a
      · rw [if_pos hc]
        have : ¬ (a ≤ 0) := not_le.mpr hc
        simp [this]
      · rw [if_neg hc]
        have : a ≤ 0 := not_lt.mp hc
        simp [this]
        ring
      · rw [if_pos hc]
        simp
      · rw [if_neg hc]
        simp

/-- C6 counterexample: predictions `[1/10, 9/10]` and targets `[0, 1]` form a
perfect separator (the only normal output `1/10` is strictly below the only
abnormal output `9/10`) with one normal example, yet `safeset_percent` with
tolerance 0 computes 0, not 100: at the very first threshold (0) the
false-negative count 0 already satisfies `false_negatives >= tolerance`, so
the loop stops immediately and no normal example has been screened out. -/
theorem safeset_tolerance_zero_cex :
    ((1:ℚ)/10 < 9/10) ∧
      SafesetComputes [1/10, 9/10] [0, 1] 0 (1/1000) 0 ∧
      ¬ SafesetComputes [1/10, 9/10] [0, 1] 0 (1/1000) 100 := by
  have hc : SafesetComputes [(1:ℚ)/10, 9/10] [0, 1] 0 (1/1000) 0 :=
    ⟨1, by norm_num [safeset_percent, safesetLoop, safesetAbove,
      safesetFalseNeg, safesetTrueNeg, n_normal]⟩
  refine ⟨by norm_num, hc, fun hc' => ?_⟩
  have h := safesetComputes_unique hc hc'
  norm_num at h

/-- C6 amended: with tolerance 0 the stop condition holds already at the
initial threshold 0 (a false-negative count is a sum of products of binary
values, hence nonnegative), so `safeset_percent` stops at the first
iteration and returns `100 * c / n_normal`, where `c` counts the examples
whose prediction is at most 0 and whose target is 0; a perfect separator
therefore yields 100 only when every normal output is ≤ 0, not in
general. -/
theorem safeset_tolerance_zero (preds targets : List ℚ) (dx : ℚ)
    (hlen : preds.length = targets.length)
    (ht : ∀ x ∈ targets, x = 0 ∨ x = 1) (hnorm : ∃ x ∈ targets, x = 0) :
    SafesetComputes preds targets 0 dx
      (100 * (((preds.zip targets).countP
        fun pt => decide (pt.1 ≤ 0) && decide (pt.2 = 0)) : ℚ) /
        n_normal targets) := by
  refine ⟨1, ?_⟩
  rw [safeset_percent]
  simp only [safesetLoop]
  rw [if_pos (fn_nonneg_binary ht), Option.map_some', tn_at_zero_eq_count ht]

/-- Witness for the amended C6 at `preds = [1/10, 9/10]`,
`targets = [0, 1]`, `dx = 1/1000`. -/
theorem safeset_tolerance_zero_witness :
    (∀ x ∈ [(0:ℚ), 1], x = 0 ∨ x = 1) ∧
      SafesetComputes [1/10, 9/10] [0, 1] 0 (1/1000)
        (100 * ((([(1:ℚ)/10, 9/10].zip [(0:ℚ), 1]).countP
          fun pt => decide (pt.1 ≤ 0) && decide (pt.2 = 0)) : ℚ) /
          n_normal [0, 1]) :=
  ⟨by decide,
    safeset_tolerance_zero [1/10, 9/10] [0, 1] (1/1000) rfl (by decide)
      (by decide)⟩

/-! ## C8: the initial-checkpoint lifecycle of k-fold cross-validation -/

theorem foldLoop_trace {W : Type} (fitF bestF : ℕ → W → W) (w0 : W) :
    ∀ (n start : ℕ) (s : KFState W), s.initFile = some w0 →
      (foldLoop fitF bestF n start s).2 =
        (List.range' start n).flatMap fun fold =>
          [KEvent.loadInit w0, KEvent.fitBegin fold w0,
            KEvent.loadBest (bestF fold w0), KEvent.evalFold fold] := by
  intro n
  induction n with
  | zero =>
    intro start s hs
    simp [foldLoop]
  | succ m ih =>
    intro start s hs
    rw [List.range'_succ, List.flatMap_cons]
    simp only [foldLoop, hs, Option.getD_some]
    rw [ih (start + 1) _ (by simp [hs])]
    simp

theorem k_fold_trace_eq {W : Type} (fitF bestF : ℕ → W → W) (w0 : W)
    (k : ℕ) :
    k_fold_trace fitF bestF w0 k =
      KEvent.saveInit w0 :: (List.range k).flatMap fun fold =>
        [KEvent.loadInit w0, KEvent.fitBegin fold w0,
          KEvent.loadBest (bestF fold w0), KEvent.evalFold fold] := by
  simp only [k_fold_trace]
  rw [List.range_eq_range']
  exact congrArg _ (foldLoop_trace fitF bestF w0 k 0 _ rfl)

theorem flatMap_no_saveInit {W : Type} (bestF : ℕ → W → W) (w0 : W)
    (l : List ℕ) :
    ((l.flatMap fun fold =>
      [KEvent.loadInit w0, KEvent.fitBegin fold w0,
        KEvent.loadBest (bestF fold w0), KEvent.evalFold fold]).filter
          isSaveInit) = [] := by
  induction l with
  | nil => rfl
  | cons a t ih =>
    rw [List.flatMap_cons, List.filter_append, ih]
    rfl

/-- C8: in every run of `k_fold_crossvalidation` (modelled by its
weight-checkpoint event trace with arbitrary training functions `fitF`,
checkpoint functions `bestF`, initial weights `w0` and fold count `k`), the
initial-weights checkpoint is written exactly once, as the very first event
before any fold begins; the initial checkpoint is restored (loadInit)
immediately before every fold's training starts; and every fold's training
begins from exactly the initial weight state `w0` — no training effect
carries over between folds. -/
theorem kfold_initial_checkpoint {W : Type} (fitF bestF : ℕ → W → W)
    (w0 : W) (k : ℕ) :
    ((k_fold_trace fitF bestF w0 k).filter isSaveInit).length = 1 ∧
      (k_fold_trace fitF bestF w0 k).head? = some (KEvent.saveInit w0) ∧
      (∀ fold, fold < k → ∃ pre post, k_fold_trace fitF bestF w0 k =
        pre ++ KEvent.loadInit w0 :: KEvent.fitBegin fold w0 :: post) ∧
      (∀ fold w, KEvent.fitBegin fold w ∈ k_fold_trace fitF bestF w0 k →
        w = w0) := by
  have htr := k_fold_trace_eq fitF bestF w0 k
  refine ⟨?_, ?_, ?_, ?_⟩
  · rw [htr, List.filter_cons]
    rw [flatMap_no_saveInit]
    rfl
  · rw [htr]
    rfl
  · intro fold hfold
    have hmem : fold ∈ List.range k := List.mem_range.mpr hfold
    obtain ⟨l1, l2, hsplit⟩ := List.append_of_mem hmem
    refine ⟨KEvent.saveInit w0 :: l1.flatMap (fun fold =>
        [KEvent.loadInit w0, KEvent.fitBegin fold w0,
          KEvent.loadBest (bestF fold w0), KEvent.evalFold fold]),
      [KEvent.loadBest (bestF fold w0), KEvent.evalFold fold] ++
        l2.flatMap (fun fold =>
          [KEvent.loadInit w0, KEvent.fitBegin fold w0,
            KEvent.loadBest (bestF fold w0), KEvent.evalFold fold]), ?_⟩
    rw [htr, hsplit, List.flatMap_append, List.flatMap_cons]
    simp
  · intro fold w hmem
    rw [htr] at hmem
    rcases List.mem_cons.mp hmem with heq | hmem2
    · exact absurd heq (by simp)
    · obtain ⟨a, _, hin⟩ := List.mem_flatMap.mp hmem2
      simp only [List.mem_cons, List.mem_singleton, List.not_mem_nil] at hin
      rcases hin with h | h | h | h
      · exact absurd h (by simp)
      · exact (KEvent.fitBegin.injEq _ _ _ _).mp h |>.2
      · exact absurd h (by simp)
      · rcases h with h | h
        · exact absurd h (by simp)
        · exact absurd h (by simp)

/-! ## C9: configuration handling of the learning-curve sweep -/

/-- C9 counterexample: supplying both `divisions` and `listSizes`
(here `divisions = 2`, `listSizes = [3]`, with 10 examples) does not raise
the configuration `ValueError`: the call fails with the `NameError` from
the unbound name `shuffle` at util.py line 199, before the configuration
check is ever reached. -/
theorem plot_safeset_both_supplied_cex :
    plot_safeset 10 (some 2) (some [3]) =
        Except.error "NameError: name shuffle is not defined" ∧
      plot_safeset 10 (some 2) (some [3]) ≠
        Except.error "Input EITHER divisions OR listSizes" := by
  constructor
  · rfl
  · intro h
    injection h with h'
    exact absurd h' (by decide)

/-- C9 amended: `plot_safeset` never raises its configuration `ValueError`
on any input — every call fails first with `NameError`, because its opening
statement `(X, y) = shuffle(X, y)` uses the unbound name `shuffle` (util.py
imports no such binding), before the configuration check is reached.  The
configuration check itself (util.py lines 201-208), were it reached, raises
the `ValueError` if and only if neither `divisions` nor `listSizes` is
supplied: supplying exactly one does not raise it, and supplying both does
not raise it either — `divisions` silently takes precedence. -/
theorem plot_safeset_never_config_error (ylen : ℕ) (divisions : Option ℕ)
    (listSizes : Option (List ℕ)) :
    plot_safeset ylen divisions listSizes =
        Except.error "NameError: name shuffle is not defined" ∧
      (plot_safeset_config ylen divisions listSizes =
          Except.error "Input EITHER divisions OR listSizes" ↔
        divisions = none ∧ listSizes = none) := by
  constructor
  · rfl
  · cases divisions with
    | some d =>
      simp only [plot_safeset_config]
      constructor
      · intro h
        split_ifs at h
        · injection h with h'
          exact absurd h' (by decide)
        · injection h with h'
          exact absurd h' (by decide)
      · rintro ⟨h, -⟩
        exact Option.noConfusion h
    | none =>
      cases listSizes with
      | some sizes => simp [plot_safeset_config]
      | none => simp [plot_safeset_config]

/-! ## C10: get_roc_auc always fails with a NameError -/

/-- C10: for every input `(X, y, model)`, `get_roc_auc` hits the unbound
identifier `targets` in its call `roc_curve(outputs, targets)` — no binding
of that name exists in the function's scope — so it returns the `NameError`
on every call and never produces an area. -/
theorem get_roc_auc_always_name_error (X : List (List ℚ)) (y : List ℚ)
    (model : List (List ℚ) → List ℚ) :
    get_roc_auc X y model =
      Except.error "NameError: name targets is not defined" := by
  rfl

end XTriage
